import Mathlib

/-!
Verification of the fuzz audio-effect plugin (src/src/lib.rs).

The per-sample transform, the processing loop and the bus-configuration
validator are embedded directly from the source.  The parameter-smoothing
machinery, range mappings and decibel conversion live in the host framework
rather than in this repository, so they are modelled from the specification
(sections 3, 4.1 and 4.2); each such definition is marked
"Modelled from the spec".  Floating-point samples and parameter values are
modelled as real numbers, durations and sample rates as rationals.
-/

/-- Bus configuration handed to the plugin during negotiation
(framework type; two channel counts). -/
structure BusConfig where
  numInputChannels : ℕ
  numOutputChannels : ℕ
deriving DecidableEq, Repr

namespace Fuzz

/-- Embedding of Fuzz::accepts_bus_config (src/src/lib.rs lines 93-96):
the plugin works with any symmetrical IO layout, so it accepts exactly when
the channel counts are equal and nonzero.  Pure by construction. -/
def acceptsBusConfig (config : BusConfig) : Bool :=
  (config.numInputChannels == config.numOutputChannels) &&
    decide (0 < config.numInputChannels)

end Fuzz

/-- Modelled from the spec (section 3): smoothing style of a parameter,
either no smoothing, linear smoothing or logarithmic smoothing over a
duration in milliseconds. -/
inductive SmoothingStyle where
  | none : SmoothingStyle
  | linear : ℚ → SmoothingStyle
  | logarithmic : ℚ → SmoothingStyle
deriving DecidableEq

/-- Modelled from the spec (section 4.2): the number of interpolation steps
for a smoothing duration in milliseconds at a given sample rate,
duration_ms * sample_rate / 1000 rounded up, with a minimum of one step. -/
def numSteps (durationMs sampleRate : ℚ) : ℕ :=
  max 1 (⌈durationMs * sampleRate / 1000⌉).toNat

/-- Modelled from the spec (section 3): per-parameter runtime smoother state.
stepSize is the per-step additive increment for linear style and the
per-step multiplicative factor for logarithmic style. -/
structure Smoother where
  style : SmoothingStyle
  currentValue : ℝ
  targetValue : ℝ
  stepSize : ℝ
  remainingSteps : ℕ

namespace Smoother

/-- Modelled from the spec (section 4.2): set_target stores the new target,
recomputes remainingSteps from the full configured duration, and precomputes
the per-step increment (linear) or factor (logarithmic); with style None the
value jumps instantaneously.  For logarithmic style a non-positive current
or target value is a precondition violation and the operation fails fast
(returns no state) instead of producing NaN or Inf. -/
noncomputable def setTarget (s : Smoother) (sampleRate : ℚ) (t : ℝ) :
    Option Smoother :=
  match s.style with
  | .none => some { s with currentValue := t, targetValue := t, remainingSteps := 0 }
  | .linear d =>
      let n := numSteps d sampleRate
      some { s with
        targetValue := t
        remainingSteps := n
        stepSize := (t - s.currentValue) / (n : ℝ) }
  | .logarithmic d =>
      if s.currentValue ≤ 0 ∨ t ≤ 0 then Option.none
      else
        let n := numSteps d sampleRate
        some { s with
          targetValue := t
          remainingSteps := n
          stepSize := (t / s.currentValue) ^ ((n : ℝ)⁻¹) }

/-- Modelled from the spec (section 4.2): next() returns currentValue
unchanged once converged, otherwise advances by one step and decrements
remainingSteps; the step that brings remainingSteps to zero snaps
currentValue exactly to targetValue. -/
def next (s : Smoother) : Smoother × ℝ :=
  if s.remainingSteps = 0 then (s, s.currentValue)
  else if s.remainingSteps = 1 then
    ({ s with currentValue := s.targetValue, remainingSteps := 0 }, s.targetValue)
  else
    let c :=
      match s.style with
      | .none => s.currentValue
      | .linear _ => s.currentValue + s.stepSize
      | .logarithmic _ => s.currentValue * s.stepSize
    ({ s with currentValue := c, remainingSteps := s.remainingSteps - 1 }, c)

/-- State reached after one call to next. -/
def advance (s : Smoother) : Smoother := (s.next).1

/-- Value produced by the (i+1)-th call to next, counting from state s. -/
def valueAt (s : Smoother) (i : ℕ) : ℝ := ((advance^[i] s).next).2

end Smoother

namespace Fuzz

/-- Embedding of the per-sample transform inside Fuzz::process
(src/src/lib.rs lines 143-149): the sample is waveshaped by
sample + sample * fuzz * 20.0, clamped to 0.8 on the upper side only,
then multiplied by the gain. -/
noncomputable def processSample (fuzz gain sample : ℝ) : ℝ :=
  let shaped := sample + sample * fuzz * 20
  let clipped := if shaped > 0.8 then (0.8 : ℝ) else shaped
  clipped * gain

/-- Embedding of the loop of Fuzz::process (src/src/lib.rs lines 138-150):
the buffer is a list of sample frames, each frame a list of channel
samples; per frame the gain smoother and then the fuzz smoother are each
advanced once, and the resulting pair of values is applied to every channel
of the frame. -/
noncomputable def process (gainSm fuzzSm : Smoother) :
    List (List ℝ) → Smoother × Smoother × List (List ℝ)
  | [] => (gainSm, fuzzSm, [])
  | frame :: rest =>
      let gain := gainSm.next
      let fuzz := fuzzSm.next
      let out := frame.map (processSample fuzz.2 gain.2)
      let r := process gain.1 fuzz.1 rest
      (r.1, r.2.1, out :: r.2.2)

end Fuzz

/-- Modelled from the spec (glossary and section 4.1): util::db_to_gain
converts decibels to a linear voltage multiplier, gain = 10 ^ (db / 20). -/
noncomputable def dbToGain (db : ℝ) : ℝ := (10 : ℝ) ^ (db / 20)

/-- Modelled from the spec (section 3): a parameter range, either linear
with a minimum and a maximum, or skewed with an additional skew factor. -/
inductive FloatRange where
  | linear (lo hi : ℝ)
  | skewed (lo hi factor : ℝ)

namespace FloatRange

/-- Lower bound of the range. -/
def minValue : FloatRange → ℝ
  | .linear lo _ => lo
  | .skewed lo _ _ => lo

/-- Upper bound of the range. -/
def maxValue : FloatRange → ℝ
  | .linear _ hi => hi
  | .skewed _ hi _ => hi

/-- Modelled from the spec (section 4.1): map a normalized position in
[0,1] to a real value; linearly, or through the power curve
min + (max - min) * normalized ^ (1 / skew_factor) for a skewed range. -/
noncomputable def toReal : FloatRange → ℝ → ℝ
  | .linear lo hi, n => lo + n * (hi - lo)
  | .skewed lo hi factor, n => lo + (hi - lo) * n ^ factor⁻¹

/-- Modelled from the spec (section 4.1): inverse mapping from a real value
to a normalized position, the corresponding power function for a skewed
range. -/
noncomputable def toNormalized : FloatRange → ℝ → ℝ
  | .linear lo hi, v => (v - lo) / (hi - lo)
  | .skewed lo hi factor, v => ((v - lo) / (hi - lo)) ^ factor

/-- Modelled from the spec (section 3): values outside the range are
clamped to it before storage. -/
noncomputable def clamp (r : FloatRange) (v : ℝ) : ℝ :=
  min r.maxValue (max r.minValue v)

end FloatRange

/-- Modelled from the spec (section 3): FloatRange::gain_skew_factor picks
the skew factor for a decibel range so that the decibel midpoint lands at
normalized one half, making equal normalized steps correspond to equal
decibel steps. -/
noncomputable def gainSkewFactor (minDb maxDb : ℝ) : ℝ :=
  Real.log 2⁻¹ /
    Real.log ((dbToGain ((minDb + maxDb) / 2) - dbToGain minDb) /
      (dbToGain maxDb - dbToGain minDb))

/-- Modelled from the spec (section 3): static descriptor of a continuous
parameter, a default value inside a range together with a smoothing
style. -/
structure FloatParam where
  defaultValue : ℝ
  range : FloatRange
  smoothingStyle : SmoothingStyle

namespace FloatParam

/-- Modelled from the spec (section 3): a value assigned to the parameter
is clamped to the declared range before storage. -/
noncomputable def store (p : FloatParam) (v : ℝ) : ℝ := p.range.clamp v

/-- Modelled from the spec (section 3): the smoother of a parameter starts
converged at the parameter's default value. -/
def initSmoother (p : FloatParam) : Smoother :=
  { style := p.smoothingStyle
    currentValue := p.defaultValue
    targetValue := p.defaultValue
    stepSize := 1
    remainingSteps := 0 }

end FloatParam

/-- Embedding of the gain parameter of FuzzParams::default
(src/src/lib.rs lines 45-58): default util::db_to_gain(0.0), skewed range
from db_to_gain(-30) to db_to_gain(30) with gain_skew_factor(-30, 30), and
logarithmic smoothing over 50 ms. -/
noncomputable def gainParam : FloatParam :=
  { defaultValue := dbToGain 0
    range := .skewed (dbToGain (-30)) (dbToGain 30) (gainSkewFactor (-30) 30)
    smoothingStyle := .logarithmic 50 }

/-- Embedding of the fuzz parameter of FuzzParams::default
(src/src/lib.rs line 65): default 0.0, linear range from 0.0 to 1.0, and no
smoothing style. -/
noncomputable def fuzzParam : FloatParam :=
  { defaultValue := 0
    range := .linear 0 1
    smoothingStyle := .none }

/-- Operations the two threads may perform on a parameter's smoother:
the control thread posts a new target, the audio thread advances by one
sample. -/
inductive SmootherOp where
  | setOp (t : ℝ)
  | stepOp

/-- Run a sequence of smoother operations: a posted target is clamped to
the parameter's range before being stored, per the spec's storage
invariant (section 3), and a failed set_target aborts the run. -/
noncomputable def runOps (sampleRate : ℚ) (range : FloatRange) :
    Smoother → List SmootherOp → Option Smoother
  | s, [] => some s
  | s, .setOp t :: ops =>
      match s.setTarget sampleRate (range.clamp t) with
      | Option.none => Option.none
      | Option.some s₁ => runOps sampleRate range s₁ ops
  | s, .stepOp :: ops => runOps sampleRate range s.advance ops

theorem Smoother.next_converged (s : Smoother) (h : s.remainingSteps = 0) :
    s.next = (s, s.currentValue) := by
  simp [Smoother.next, h]

theorem Smoother.advance_converged (s : Smoother) (h : s.remainingSteps = 0) :
    s.advance = s := by
  simp [Smoother.advance, Smoother.next_converged s h]

theorem Smoother.valueAt_zero (s : Smoother) : s.valueAt 0 = (s.next).2 := rfl

theorem Smoother.valueAt_succ (s : Smoother) (i : ℕ) :
    s.valueAt (i + 1) = (s.advance).valueAt i := by
  simp [Smoother.valueAt, Function.iterate_succ_apply]

theorem Smoother.valueAt_converged (s : Smoother) (h : s.remainingSteps = 0)
    (i : ℕ) : s.valueAt i = s.currentValue := by
  induction i with
  | zero => simp [Smoother.valueAt_zero, Smoother.next_converged s h]
  | succ i ih => rw [Smoother.valueAt_succ, Smoother.advance_converged s h]; exact ih

theorem Fuzz.process_fst (gs fs : Smoother) (buf : List (List ℝ)) :
    (Fuzz.process gs fs buf).1 = Smoother.advance^[buf.length] gs := by
  induction buf generalizing gs fs with
  | nil => simp [Fuzz.process]
  | cons frame rest ih =>
      simp only [Fuzz.process, List.length_cons, Function.iterate_succ_apply]
      exact ih _ _

theorem Fuzz.process_snd_fst (gs fs : Smoother) (buf : List (List ℝ)) :
    (Fuzz.process gs fs buf).2.1 = Smoother.advance^[buf.length] fs := by
  induction buf generalizing gs fs with
  | nil => simp [Fuzz.process]
  | cons frame rest ih =>
      simp only [Fuzz.process, List.length_cons, Function.iterate_succ_apply]
      exact ih _ _

theorem Fuzz.process_getElem (gs fs : Smoother) (buf : List (List ℝ)) (i : ℕ) :
    ((Fuzz.process gs fs buf).2.2)[i]? =
      (buf[i]?).map
        (fun frame => frame.map (Fuzz.processSample (fs.valueAt i) (gs.valueAt i))) := by
  induction buf generalizing gs fs i with
  | nil => simp [Fuzz.process]
  | cons frame rest ih =>
      cases i with
      | zero => simp [Fuzz.process, Smoother.valueAt_zero]
      | succ i =>
          simp only [Fuzz.process, List.getElem?_cons_succ, Smoother.valueAt_succ]
          exact ih _ _ _

theorem Smoother.next_snap (s : Smoother) (h : s.remainingSteps = 1) :
    s.next = ({ s with currentValue := s.targetValue, remainingSteps := 0 },
      s.targetValue) := by
  simp [Smoother.next, h]

theorem Smoother.next_step_linear (s : Smoother) (d : ℚ)
    (hst : s.style = .linear d) (h : 2 ≤ s.remainingSteps) :
    s.next = ({ s with
        currentValue := s.currentValue + s.stepSize
        remainingSteps := s.remainingSteps - 1 },
      s.currentValue + s.stepSize) := by
  have h0 : s.remainingSteps ≠ 0 := by omega
  have h1 : s.remainingSteps ≠ 1 := by omega
  simp [Smoother.next, h0, h1, hst]

theorem Smoother.next_step_log (s : Smoother) (d : ℚ)
    (hst : s.style = .logarithmic d) (h : 2 ≤ s.remainingSteps) :
    s.next = ({ s with
        currentValue := s.currentValue * s.stepSize
        remainingSteps := s.remainingSteps - 1 },
      s.currentValue * s.stepSize) := by
  have h0 : s.remainingSteps ≠ 0 := by omega
  have h1 : s.remainingSteps ≠ 1 := by omega
  simp [Smoother.next, h0, h1, hst]

theorem Smoother.linear_run (d : ℚ) (c t : ℝ) (n : ℕ) (hn : n ≠ 0)
    (k : ℕ) (hk : k ≤ n) :
    Smoother.advance^[k]
      { style := .linear d, currentValue := c, targetValue := t,
        stepSize := (t - c) / (n : ℝ), remainingSteps := n } =
      { style := .linear d,
        currentValue := c + (k : ℝ) * ((t - c) / (n : ℝ)),
        targetValue := t,
        stepSize := (t - c) / (n : ℝ),
        remainingSteps := n - k } := by
  have hnR : (n : ℝ) ≠ 0 := Nat.cast_ne_zero.mpr hn
  induction k with
  | zero => simp
  | succ k ih =>
      have hk' : k ≤ n := Nat.le_of_succ_le hk
      rw [Function.iterate_succ_apply', ih hk']
      by_cases h2 : n - k = 1
      · have hkn : k + 1 = n := by omega
        rw [Smoother.advance, Smoother.next_snap _ (by simpa using h2)]
        simp only [Smoother.mk.injEq, true_and, and_true]
        constructor
        · subst hkn
          field_simp
        · omega
      · have h3 : 2 ≤ n - k := by omega
        rw [Smoother.advance, Smoother.next_step_linear _ d rfl (by simpa using h3)]
        simp only [Smoother.mk.injEq, true_and, and_true]
        constructor
        · push_cast
          ring
        · omega

theorem Smoother.log_run (d : ℚ) (c t : ℝ) (n : ℕ) (hn : n ≠ 0)
    (hc : 0 < c) (ht : 0 < t) (k : ℕ) (hk : k ≤ n) :
    Smoother.advance^[k]
      { style := .logarithmic d, currentValue := c, targetValue := t,
        stepSize := (t / c) ^ ((n : ℝ)⁻¹), remainingSteps := n } =
      { style := .logarithmic d,
        currentValue := c * ((t / c) ^ ((n : ℝ)⁻¹)) ^ k,
        targetValue := t,
        stepSize := (t / c) ^ ((n : ℝ)⁻¹),
        remainingSteps := n - k } := by
  have hr : ((t / c) ^ ((n : ℝ)⁻¹)) ^ n = t / c :=
    Real.rpow_inv_natCast_pow (by positivity) hn
  induction k with
  | zero => simp
  | succ k ih =>
      have hk' : k ≤ n := Nat.le_of_succ_le hk
      rw [Function.iterate_succ_apply', ih hk']
      by_cases h2 : n - k = 1
      · have hkn : k + 1 = n := by omega
        rw [Smoother.advance, Smoother.next_snap _ (by simpa using h2)]
        simp only [Smoother.mk.injEq, true_and, and_true]
        constructor
        · subst hkn
          rw [hr]
          field_simp
        · omega
      · have h3 : 2 ≤ n - k := by omega
        rw [Smoother.advance, Smoother.next_step_log _ d rfl (by simpa using h3)]
        simp only [Smoother.mk.injEq, true_and, and_true]
        constructor
        · ring
        · omega

theorem numSteps_pos (d r : ℚ) : 0 < numSteps d r := by
  simp [numSteps]

theorem numSteps_eq_ceil (d r : ℚ) (hd : 0 < d) (hr : 0 < r) :
    numSteps d r = (⌈d * r / 1000⌉).toNat := by
  have h1 : (0 : ℤ) < ⌈d * r / 1000⌉ := Int.ceil_pos.mpr (by positivity)
  unfold numSteps
  omega

theorem linear_val_ne (c t : ℝ) (n k : ℕ) (hne : c ≠ t) (hk : k < n) :
    c + (k : ℝ) * ((t - c) / (n : ℝ)) ≠ t := by
  have hnR : (n : ℝ) ≠ 0 := Nat.cast_ne_zero.mpr (by omega)
  intro heq
  have hu : ((n : ℝ)) * ((t - c) / (n : ℝ)) = t - c := by field_simp
  have hku : (k : ℝ) * ((t - c) / (n : ℝ)) = t - c := by linarith [heq]
  have hzero : ((k : ℝ) - (n : ℝ)) * ((t - c) / (n : ℝ)) = 0 := by
    rw [sub_mul, hku, hu]
    ring
  have hune : (t - c) / (n : ℝ) ≠ 0 :=
    div_ne_zero (sub_ne_zero_of_ne (Ne.symm hne)) hnR
  rcases mul_eq_zero.mp hzero with h | h
  · have hcast : (k : ℝ) = (n : ℝ) := by linarith
    have : k = n := Nat.cast_injective hcast
    omega
  · exact hune h

theorem log_val_ne (c t : ℝ) (n k : ℕ) (hc : 0 < c) (ht : 0 < t)
    (hne : c ≠ t) (hk : k < n) :
    c * ((t / c) ^ ((n : ℝ)⁻¹)) ^ k ≠ t := by
  have hn : n ≠ 0 := by omega
  have hq : 0 < t / c := div_pos ht hc
  have hrpos : 0 < (t / c) ^ ((n : ℝ)⁻¹) := Real.rpow_pos_of_pos hq _
  have hrn : ((t / c) ^ ((n : ℝ)⁻¹)) ^ n = t / c :=
    Real.rpow_inv_natCast_pow hq.le hn
  have hc0 : c ≠ 0 := ne_of_gt hc
  have hr1 : (t / c) ^ ((n : ℝ)⁻¹) ≠ 1 := by
    intro h
    rw [h, one_pow] at hrn
    have : t = c := by field_simp at hrn; linarith
    exact hne this.symm
  intro heq
  have h2 : c * ((t / c) ^ ((n : ℝ)⁻¹)) ^ n = t := by
    rw [hrn]
    field_simp
  have h3 : ((t / c) ^ ((n : ℝ)⁻¹)) ^ k = ((t / c) ^ ((n : ℝ)⁻¹)) ^ n := by
    apply mul_left_cancel₀ hc0
    rw [heq, h2]
  rcases lt_or_gt_of_ne hr1 with h | h
  · have hlt := pow_lt_pow_right_of_lt_one₀ hrpos h hk
    exact absurd h3 (ne_of_gt hlt)
  · have hlt := pow_lt_pow_right₀ h hk
    exact absurd h3 (ne_of_lt hlt)

/-- C1: every sample of every frame processed by process is transformed by
shaped = sample + sample * fuzz * 20; shaped is clamped to exactly 0.8 only
when it exceeds 0.8 (negative excursions pass through unclamped), and the
result is multiplied by the gain afterwards; in particular input 1 with
fuzz 1 gives shaped 21, clamped to 0.8 before the gain multiply. -/
theorem C1_per_sample_transform :
    (∀ (gs fs : Smoother) (buf : List (List ℝ)) (i : ℕ),
      ((Fuzz.process gs fs buf).2.2)[i]? =
        (buf[i]?).map (fun frame =>
          frame.map (Fuzz.processSample (fs.valueAt i) (gs.valueAt i)))) ∧
    (∀ fuzz gain sample : ℝ,
      ((0.8 : ℝ) < sample + sample * fuzz * 20 →
        Fuzz.processSample fuzz gain sample = 0.8 * gain) ∧
      (sample + sample * fuzz * 20 ≤ (0.8 : ℝ) →
        Fuzz.processSample fuzz gain sample =
          (sample + sample * fuzz * 20) * gain)) ∧
    (∀ gain : ℝ, Fuzz.processSample 1 gain 1 = 0.8 * gain) := by
  refine ⟨fun gs fs buf i => Fuzz.process_getElem gs fs buf i,
    fun fuzz gain sample => ⟨fun h => ?_, fun h => ?_⟩, fun gain => ?_⟩
  · simp [Fuzz.processSample, h]
  · simp [Fuzz.processSample, not_lt.mpr h]
  · norm_num [Fuzz.processSample]

/-- Witness for C1: a positive overdriven sample is clamped to 0.8 before
the gain stage, and a negative overdriven sample passes through
unclamped. -/
theorem C1_per_sample_transform_witness :
    ((0.8 : ℝ) < 2 + 2 * 1 * 20 ∧ Fuzz.processSample 1 5 2 = 0.8 * 5) ∧
    ((-1 : ℝ) + -1 * 1 * 20 ≤ (0.8 : ℝ) ∧
      Fuzz.processSample 1 5 (-1) = (-1 + -1 * 1 * 20) * 5) :=
  ⟨⟨by norm_num, (C1_per_sample_transform.2.1 1 5 2).1 (by norm_num)⟩,
    ⟨by norm_num, (C1_per_sample_transform.2.1 1 5 (-1)).2 (by norm_num)⟩⟩

/-- C2: accepts_bus_config is a pure function of the configuration and
returns true exactly when the input and output channel counts are equal and
nonzero; in particular it accepts (2,2) and (1,1) and rejects (2,1) and
(0,0). -/
theorem C2_accepts_bus_config :
    (∀ config : BusConfig,
      Fuzz.acceptsBusConfig config = true ↔
        (config.numInputChannels = config.numOutputChannels ∧
          0 < config.numInputChannels)) ∧
    Fuzz.acceptsBusConfig ⟨2, 2⟩ = true ∧
    Fuzz.acceptsBusConfig ⟨1, 1⟩ = true ∧
    Fuzz.acceptsBusConfig ⟨2, 1⟩ = false ∧
    Fuzz.acceptsBusConfig ⟨0, 0⟩ = false := by
  refine ⟨fun config => ?_, rfl, rfl, rfl, rfl⟩
  simp [Fuzz.acceptsBusConfig]

/-- C3: within one call to process, every sample frame uses a single fuzz
value and a single gain value for all of its channels (the i-th frame uses
the value produced by the (i+1)-th call to the corresponding smoother), and
each smoother is advanced by exactly one next() step per frame processed,
regardless of how many channels the frame has. -/
theorem C3_one_smoother_step_per_frame :
    ∀ (gs fs : Smoother) (buf : List (List ℝ)),
      (Fuzz.process gs fs buf).1 = Smoother.advance^[buf.length] gs ∧
      (Fuzz.process gs fs buf).2.1 = Smoother.advance^[buf.length] fs ∧
      ∀ i : ℕ,
        ((Fuzz.process gs fs buf).2.2)[i]? =
          (buf[i]?).map (fun frame =>
            frame.map (Fuzz.processSample (fs.valueAt i) (gs.valueAt i))) :=
  fun gs fs buf =>
    ⟨Fuzz.process_fst gs fs buf, Fuzz.process_snd_fst gs fs buf,
      fun i => Fuzz.process_getElem gs fs buf i⟩

theorem Fuzz.process_converged (gs fs : Smoother) (hgs : gs.remainingSteps = 0)
    (hfs : fs.remainingSteps = 0) (buf : List (List ℝ)) :
    Fuzz.process gs fs buf =
      (gs, fs,
        buf.map (List.map (Fuzz.processSample fs.currentValue gs.currentValue))) := by
  induction buf with
  | nil => simp [Fuzz.process]
  | cons frame rest ih =>
      simp only [Fuzz.process, Smoother.next_converged gs hgs,
        Smoother.next_converged fs hfs, ih, List.map_cons]

theorem Fuzz.processSample_below_ceiling (x : ℝ) (hx : x ≤ (0.8 : ℝ)) :
    Fuzz.processSample 0 1 x = x := by
  simp [Fuzz.processSample, not_lt.mpr hx]

/-- Counterexample to C6: with fuzz 0 and gain at the 0 dB multiplier 1,
process is not the identity: the sample 1 is clamped to 0.8 by the
unconditional upper clip, so the output differs from the input. -/
theorem C6_identity_counterexample :
    (Fuzz.process gainParam.initSmoother fuzzParam.initSmoother [[1]]).2.2 =
      [[(0.8 : ℝ)]] ∧ (0.8 : ℝ) ≠ 1 := by
  constructor
  · rw [Fuzz.process_converged _ _ rfl rfl]
    have hg : gainParam.initSmoother.currentValue = 1 := by
      simp [gainParam, FloatParam.initSmoother, dbToGain, Real.rpow_zero]
    have hf : fuzzParam.initSmoother.currentValue = 0 := rfl
    rw [hg, hf]
    norm_num [Fuzz.processSample]
  · norm_num

/-- C6 amended: with fuzz 0 and gain at the 0 dB multiplier 1, process is
the identity on every buffer all of whose samples lie at or below the 0.8
clip ceiling; samples above the ceiling are clamped to 0.8, so the claim
fails on such buffers. -/
theorem C6_identity_below_ceiling (buf : List (List ℝ))
    (hbuf : ∀ frame ∈ buf, ∀ x ∈ frame, x ≤ (0.8 : ℝ)) :
    (Fuzz.process gainParam.initSmoother fuzzParam.initSmoother buf).2.2 =
      buf := by
  rw [Fuzz.process_converged _ _ rfl rfl]
  have hg : gainParam.initSmoother.currentValue = 1 := by
    simp [gainParam, FloatParam.initSmoother, dbToGain, Real.rpow_zero]
  have hf : fuzzParam.initSmoother.currentValue = 0 := rfl
  rw [hg, hf]
  induction buf with
  | nil => rfl
  | cons frame rest ih =>
      have hframe : ∀ x ∈ frame, x ≤ (0.8 : ℝ) := hbuf frame (by simp)
      have hrest : ∀ fr ∈ rest, ∀ x ∈ fr, x ≤ (0.8 : ℝ) :=
        fun fr hfr => hbuf fr (by simp [hfr])
      have hmap : ∀ l : List ℝ, (∀ x ∈ l, x ≤ (0.8 : ℝ)) →
          l.map (Fuzz.processSample 0 1) = l := by
        intro l hl
        induction l with
        | nil => rfl
        | cons x xs ihl =>
            simp only [List.map_cons, List.cons.injEq]
            exact ⟨Fuzz.processSample_below_ceiling x (hl x (by simp)),
              ihl fun y hy => hl y (by simp [hy])⟩
      simp only [List.map_cons, List.cons.injEq]
      exact ⟨hmap frame hframe, ih hrest⟩

/-- Witness for C6 amended: a two-channel frame with one small positive and
one large negative sample is below the ceiling and is returned
unchanged. -/
theorem C6_identity_below_ceiling_witness :
    (∀ frame ∈ [[(0.5 : ℝ), -2]], ∀ x ∈ frame, x ≤ (0.8 : ℝ)) ∧
    (Fuzz.process gainParam.initSmoother fuzzParam.initSmoother
      [[(0.5 : ℝ), -2]]).2.2 = [[(0.5 : ℝ), -2]] := by
  have h : ∀ frame ∈ [[(0.5 : ℝ), -2]], ∀ x ∈ frame, x ≤ (0.8 : ℝ) := by
    intro frame hframe x hx
    simp only [List.mem_singleton] at hframe
    subst hframe
    rcases List.mem_cons.mp hx with h | h
    · rw [h]; norm_num
    · simp only [List.mem_singleton] at h
      rw [h]; norm_num
  exact ⟨h, C6_identity_below_ceiling _ h⟩

/-- C8: the fuzz parameter is constructed without a smoothing style, unlike
the gain parameter which uses logarithmic smoothing over 50 ms; for a
smoother with no smoothing style, setting a target makes the very next
next() call (and every later one, until retargeted) return exactly the new
target: automation of fuzz is an instantaneous step with no
interpolation. -/
theorem C8_fuzz_no_smoothing :
    fuzzParam.smoothingStyle = SmoothingStyle.none ∧
    gainParam.smoothingStyle = SmoothingStyle.logarithmic 50 ∧
    ∀ (s : Smoother) (rate : ℚ) (t : ℝ), s.style = SmoothingStyle.none →
      ∃ s₁, s.setTarget rate t = some s₁ ∧ (s₁.next).2 = t ∧
        ∀ i : ℕ, s₁.valueAt i = t := by
  refine ⟨rfl, rfl, fun s rate t hst => ?_⟩
  refine ⟨{ s with currentValue := t, targetValue := t, remainingSteps := 0 },
    ?_, ?_, ?_⟩
  · simp [Smoother.setTarget, hst]
  · rw [Smoother.next_converged _ rfl]
  · exact fun i => Smoother.valueAt_converged _ rfl i

/-- Witness for C8: the fuzz parameter's freshly constructed smoother has
no smoothing style, and retargeting it to 0.7 makes the next call return
0.7 immediately. -/
theorem C8_fuzz_no_smoothing_witness :
    fuzzParam.initSmoother.style = SmoothingStyle.none ∧
    ∃ s₁, fuzzParam.initSmoother.setTarget 44100 (7 / 10) = some s₁ ∧
      (s₁.next).2 = 7 / 10 ∧ ∀ i : ℕ, s₁.valueAt i = 7 / 10 :=
  ⟨rfl, C8_fuzz_no_smoothing.2.2 fuzzParam.initSmoother 44100 (7 / 10) rfl⟩

/-- C4: for every smoothing duration D in milliseconds and sample rate R, a
smoother (linear or logarithmic, as used for the gain parameter with D = 50
and logarithmic style) whose new target differs from its current value
reaches currentValue = targetValue exactly, with no residual drift, after
ceil(D * R / 1000) calls to next(), and currentValue differs from the
target before that call count is reached. -/
theorem C4_smoother_convergence (d rate : ℚ) (c t : ℝ) (s : Smoother)
    (hd : 0 < d) (hr : 0 < rate)
    (hst : s.style = SmoothingStyle.linear d ∨
      s.style = SmoothingStyle.logarithmic d)
    (hc : 0 < c) (ht : 0 < t) (hne : c ≠ t) (hcur : s.currentValue = c) :
    numSteps d rate = (⌈d * rate / 1000⌉).toNat ∧
    ∃ s₁, s.setTarget rate t = some s₁ ∧
      (∀ k < numSteps d rate,
        (Smoother.advance^[k] s₁).currentValue ≠ t) ∧
      (Smoother.advance^[numSteps d rate] s₁).currentValue = t := by
  obtain ⟨st, cv, tv, ss, rs⟩ := s
  simp only at hst hcur
  subst hcur
  have hn : numSteps d rate ≠ 0 := by
    have := numSteps_pos d rate
    omega
  refine ⟨numSteps_eq_ceil d rate hd hr, ?_⟩
  rcases hst with h | h
  · subst h
    refine ⟨{ style := .linear d
              currentValue := cv
              targetValue := t
              stepSize := (t - cv) / (numSteps d rate : ℝ)
              remainingSteps := numSteps d rate }, ?_, ?_, ?_⟩
    · simp [Smoother.setTarget]
    · intro k hk
      rw [Smoother.linear_run d cv t (numSteps d rate) hn k (le_of_lt hk)]
      exact linear_val_ne cv t (numSteps d rate) k hne hk
    · rw [Smoother.linear_run d cv t (numSteps d rate) hn (numSteps d rate) le_rfl]
      have hnR : ((numSteps d rate : ℕ) : ℝ) ≠ 0 := Nat.cast_ne_zero.mpr hn
      field_simp
  · subst h
    have hguard : ¬ (cv ≤ 0 ∨ t ≤ 0) := by push_neg; exact ⟨hc, ht⟩
    refine ⟨{ style := .logarithmic d
              currentValue := cv
              targetValue := t
              stepSize := (t / cv) ^ (((numSteps d rate : ℕ) : ℝ)⁻¹)
              remainingSteps := numSteps d rate }, ?_, ?_, ?_⟩
    · simp [Smoother.setTarget, hguard]
    · intro k hk
      rw [Smoother.log_run d cv t (numSteps d rate) hn hc ht k (le_of_lt hk)]
      exact log_val_ne cv t (numSteps d rate) k hc ht hne hk
    · rw [Smoother.log_run d cv t (numSteps d rate) hn hc ht (numSteps d rate) le_rfl]
      rw [Real.rpow_inv_natCast_pow (by positivity) hn]
      field_simp

/-- Witness for C4: a linear smoother at value 1 retargeted to 2 with a
50 ms duration at a 100 Hz sample rate converges in exactly
ceil(50 * 100 / 1000) = 5 steps and not before. -/
theorem C4_smoother_convergence_witness :
    (0 : ℚ) < 50 ∧ (0 : ℚ) < 100 ∧ (0 : ℝ) < 1 ∧ (0 : ℝ) < 2 ∧
    (1 : ℝ) ≠ 2 ∧
    (numSteps 50 100 = (⌈(50 : ℚ) * 100 / 1000⌉).toNat ∧
      ∃ s₁,
        Smoother.setTarget
          { style := SmoothingStyle.linear 50
            currentValue := 1
            targetValue := 1
            stepSize := 1
            remainingSteps := 0 } 100 2 = some s₁ ∧
        (∀ k < numSteps 50 100,
          (Smoother.advance^[k] s₁).currentValue ≠ 2) ∧
        (Smoother.advance^[numSteps 50 100] s₁).currentValue = 2) :=
  ⟨by norm_num, by norm_num, by norm_num, by norm_num, by norm_num,
    C4_smoother_convergence 50 100 1 2 _ (by norm_num) (by norm_num)
      (Or.inl rfl) (by norm_num) (by norm_num) (by norm_num) rfl⟩

theorem Smoother.iterate_advance_converged (s : Smoother)
    (h : s.remainingSteps = 0) (m : ℕ) : Smoother.advance^[m] s = s := by
  induction m with
  | zero => rfl
  | succ m ih => rw [Function.iterate_succ_apply', ih, Smoother.advance_converged s h]

theorem log_val_between (c t : ℝ) (n k : ℕ) (hc : 0 < c) (ht : 0 < t)
    (hn : n ≠ 0) (hk : k ≤ n) :
    min c t ≤ c * ((t / c) ^ ((n : ℝ)⁻¹)) ^ k ∧
      c * ((t / c) ^ ((n : ℝ)⁻¹)) ^ k ≤ max c t := by
  have hq : 0 < t / c := div_pos ht hc
  have hrpos : 0 < (t / c) ^ ((n : ℝ)⁻¹) := Real.rpow_pos_of_pos hq _
  have hrn : ((t / c) ^ ((n : ℝ)⁻¹)) ^ n = t / c :=
    Real.rpow_inv_natCast_pow hq.le hn
  have hct : c * (t / c) = t := by field_simp
  rcases le_total c t with h | h
  · have h1 : (1 : ℝ) ≤ t / c := (one_le_div hc).mpr h
    have hr1 : (1 : ℝ) ≤ (t / c) ^ ((n : ℝ)⁻¹) :=
      Real.one_le_rpow h1 (by positivity)
    have hk1 : (1 : ℝ) ≤ ((t / c) ^ ((n : ℝ)⁻¹)) ^ k := one_le_pow₀ hr1
    have hkn : ((t / c) ^ ((n : ℝ)⁻¹)) ^ k ≤ ((t / c) ^ ((n : ℝ)⁻¹)) ^ n :=
      pow_le_pow_right₀ hr1 hk
    constructor
    · rw [min_eq_left h]
      nlinarith
    · rw [max_eq_right h]
      have := mul_le_mul_of_nonneg_left (hkn.trans_eq hrn) hc.le
      rw [hct] at this
      exact this
  · have h1 : t / c ≤ 1 := (div_le_one hc).mpr h
    have hr1 : (t / c) ^ ((n : ℝ)⁻¹) ≤ 1 :=
      Real.rpow_le_one hq.le h1 (by positivity)
    have hk1 : ((t / c) ^ ((n : ℝ)⁻¹)) ^ k ≤ 1 := pow_le_one₀ hrpos.le hr1
    have hnk : ((t / c) ^ ((n : ℝ)⁻¹)) ^ n ≤ ((t / c) ^ ((n : ℝ)⁻¹)) ^ k :=
      Bound.pow_le_pow_right_of_le_one_or_one_le
        (Or.inr ⟨hrpos.le, hr1, hk⟩)
    constructor
    · rw [min_eq_right h]
      have := mul_le_mul_of_nonneg_left (hrn.symm.trans_le hnk) hc.le
      rw [hct] at this
      exact this
    · rw [max_eq_left h]
      nlinarith

/-- C5: calling set_target on a gain-style (logarithmic) smoother at any
time, including mid-interpolation, restarts the interpolation from the
value currently held in currentValue, recomputes remainingSteps from the
full configured duration, and the subsequent next() sequence stays between
the current value and the new target (never overshooting toward the old
target) and converges exactly to the new target. -/
theorem C5_retarget_restarts_from_current (d rate : ℚ) (t : ℝ) (s : Smoother)
    (hst : s.style = SmoothingStyle.logarithmic d)
    (hc : 0 < s.currentValue) (ht : 0 < t) :
    ∃ s₁, s.setTarget rate t = some s₁ ∧
      s₁.currentValue = s.currentValue ∧
      s₁.remainingSteps = numSteps d rate ∧
      (∀ k ≤ numSteps d rate,
        min s.currentValue t ≤ (Smoother.advance^[k] s₁).currentValue ∧
        (Smoother.advance^[k] s₁).currentValue ≤ max s.currentValue t) ∧
      (∀ k, numSteps d rate ≤ k →
        (Smoother.advance^[k] s₁).currentValue = t) := by
  obtain ⟨st, cv, tv, ss, rs⟩ := s
  simp only at hst hc
  subst hst
  have hn : numSteps d rate ≠ 0 := by
    have := numSteps_pos d rate
    omega
  have hguard : ¬ (cv ≤ 0 ∨ t ≤ 0) := by push_neg; exact ⟨hc, ht⟩
  refine ⟨{ style := .logarithmic d
            currentValue := cv
            targetValue := t
            stepSize := (t / cv) ^ (((numSteps d rate : ℕ) : ℝ)⁻¹)
            remainingSteps := numSteps d rate }, ?_, rfl, rfl, ?_, ?_⟩
  · simp [Smoother.setTarget, hguard]
  · intro k hk
    rw [Smoother.log_run d cv t (numSteps d rate) hn hc ht k hk]
    exact log_val_between cv t (numSteps d rate) k hc ht hn hk
  · intro k hk
    rw [show k = (k - numSteps d rate) + numSteps d rate by omega,
      Function.iterate_add_apply]
    rw [Smoother.log_run d cv t (numSteps d rate) hn hc ht
      (numSteps d rate) le_rfl]
    rw [Smoother.iterate_advance_converged _ (by simp)]
    have hval : cv * ((t / cv) ^ (((numSteps d rate : ℕ) : ℝ)⁻¹)) ^
        (numSteps d rate) = t := by
      rw [Real.rpow_inv_natCast_pow (by positivity) hn]
      field_simp
    exact hval

/-- Witness for C5: a logarithmic smoother caught mid-way at value 0.4
while still having 3 steps toward an old target 1, retargeted to 0.5 at a
100 Hz rate, restarts from 0.4, stays between 0.4 and 0.5, and converges
to 0.5. -/
theorem C5_retarget_restarts_from_current_witness :
    (0 : ℝ) < 2 / 5 ∧ (0 : ℝ) < 1 / 2 ∧
    (∃ s₁,
      Smoother.setTarget
        { style := SmoothingStyle.logarithmic 50
          currentValue := 2 / 5
          targetValue := 1
          stepSize := 1
          remainingSteps := 3 } 100 (1 / 2) = some s₁ ∧
      s₁.currentValue = 2 / 5 ∧
      s₁.remainingSteps = numSteps 50 100 ∧
      (∀ k ≤ numSteps 50 100,
        min (2 / 5 : ℝ) (1 / 2) ≤ (Smoother.advance^[k] s₁).currentValue ∧
        (Smoother.advance^[k] s₁).currentValue ≤ max (2 / 5 : ℝ) (1 / 2)) ∧
      (∀ k, numSteps 50 100 ≤ k →
        (Smoother.advance^[k] s₁).currentValue = 1 / 2)) :=
  ⟨by norm_num, by norm_num,
    C5_retarget_restarts_from_current 50 100 (1 / 2) _ rfl (by norm_num)
      (by norm_num)⟩

theorem Smoother.advance_pos (s : Smoother) (d : ℚ)
    (h1 : s.style = SmoothingStyle.logarithmic d)
    (h2 : 0 < s.currentValue) (h3 : 0 < s.targetValue)
    (h4 : 0 < s.stepSize) :
    (s.advance).style = SmoothingStyle.logarithmic d ∧
    0 < (s.advance).currentValue ∧ 0 < (s.advance).targetValue ∧
    0 < (s.advance).stepSize := by
  by_cases hz : s.remainingSteps = 0
  · rw [Smoother.advance_converged s hz]
    exact ⟨h1, h2, h3, h4⟩
  · by_cases ho : s.remainingSteps = 1
    · rw [Smoother.advance, Smoother.next_snap s ho]
      exact ⟨h1, h3, h3, h4⟩
    · have htwo : 2 ≤ s.remainingSteps := by omega
      rw [Smoother.advance, Smoother.next_step_log s d h1 htwo]
      exact ⟨h1, mul_pos h2 h4, h3, h4⟩

theorem Smoother.setTarget_log_pos (s : Smoother) (rate : ℚ) (t : ℝ) (d : ℚ)
    (h1 : s.style = SmoothingStyle.logarithmic d)
    (h2 : 0 < s.currentValue) (ht : 0 < t) :
    ∃ s₁, s.setTarget rate t = some s₁ ∧
      s₁.style = SmoothingStyle.logarithmic d ∧
      s₁.currentValue = s.currentValue ∧ s₁.targetValue = t ∧
      0 < s₁.stepSize := by
  obtain ⟨st, cv, tv, ss, rs⟩ := s
  simp only at h1 h2 ⊢
  subst h1
  have hguard : ¬ (cv ≤ 0 ∨ t ≤ 0) := by push_neg; exact ⟨h2, ht⟩
  refine ⟨{ style := .logarithmic d
            currentValue := cv
            targetValue := t
            stepSize := (t / cv) ^ (((numSteps d rate : ℕ) : ℝ)⁻¹)
            remainingSteps := numSteps d rate }, ?_, rfl, rfl, rfl, ?_⟩
  · simp [Smoother.setTarget, hguard]
  · exact Real.rpow_pos_of_pos (div_pos ht h2) _

theorem dbToGain_pos (db : ℝ) : 0 < dbToGain db :=
  Real.rpow_pos_of_pos (by norm_num) _

theorem dbToGain_lt_dbToGain {a b : ℝ} (h : a < b) :
    dbToGain a < dbToGain b := by
  unfold dbToGain
  exact (Real.rpow_lt_rpow_left_iff (by norm_num : (1 : ℝ) < 10)).mpr
    (by linarith)

theorem FloatRange.clamp_mem (r : FloatRange)
    (h : r.minValue ≤ r.maxValue) (v : ℝ) :
    r.minValue ≤ r.clamp v ∧ r.clamp v ≤ r.maxValue :=
  ⟨le_min h (le_max_left _ _), min_le_left _ _⟩

theorem gainRange_clamp_pos (t : ℝ) : 0 < gainParam.range.clamp t := by
  have hb : gainParam.range.minValue ≤ gainParam.range.maxValue :=
    le_of_lt (dbToGain_lt_dbToGain (by norm_num : (-30 : ℝ) < 30))
  exact lt_of_lt_of_le (dbToGain_pos (-30))
    (FloatRange.clamp_mem gainParam.range hb t).1

theorem runOps_gain_inv (rate : ℚ) (ops : List SmootherOp) :
    ∀ s : Smoother, s.style = SmoothingStyle.logarithmic 50 →
      0 < s.currentValue → 0 < s.targetValue → 0 < s.stepSize →
      ∃ s', runOps rate gainParam.range s ops = some s' ∧
        s'.style = SmoothingStyle.logarithmic 50 ∧
        0 < s'.currentValue ∧ 0 < s'.targetValue ∧ 0 < s'.stepSize := by
  induction ops with
  | nil => exact fun s h1 h2 h3 h4 => ⟨s, rfl, h1, h2, h3, h4⟩
  | cons op ops ih =>
      intro s h1 h2 h3 h4
      cases op with
      | stepOp =>
          obtain ⟨g1, g2, g3, g4⟩ := Smoother.advance_pos s 50 h1 h2 h3 h4
          obtain ⟨s', hrun, hinv⟩ := ih s.advance g1 g2 g3 g4
          exact ⟨s', hrun, hinv⟩
      | setOp t =>
          obtain ⟨s₁, hset, k1, k2, k3, k4⟩ :=
            Smoother.setTarget_log_pos s rate (gainParam.range.clamp t) 50 h1
              h2 (gainRange_clamp_pos t)
          obtain ⟨s', hrun, hinv⟩ := ih s₁ k1 (k2 ▸ h2)
            (k3 ▸ gainRange_clamp_pos t) k4
          refine ⟨s', ?_, hinv⟩
          simp only [runOps, hset]
          exact hrun

/-- C9: logarithmic smoothing requires strictly positive current and target
values: a non-positive value makes set_target fail fast (return no state)
rather than produce NaN or Inf; and under the gain parameter's range from
db_to_gain(-30) to db_to_gain(30) with clamping before storage, every
reachable smoother state of the gain parameter keeps both values strictly
positive, so the failure branch is unreachable. -/
theorem C9_log_requires_positive :
    (∀ (s : Smoother) (d rate : ℚ) (t : ℝ),
      s.style = SmoothingStyle.logarithmic d →
      (s.currentValue ≤ 0 ∨ t ≤ 0) →
      s.setTarget rate t = Option.none) ∧
    (∀ (ops : List SmootherOp) (rate : ℚ),
      ∃ s', runOps rate gainParam.range gainParam.initSmoother ops = some s' ∧
        0 < s'.currentValue ∧ 0 < s'.targetValue) := by
  constructor
  · intro s d rate t hst hbad
    obtain ⟨st, cv, tv, ss, rs⟩ := s
    simp only at hst hbad
    subst hst
    simp [Smoother.setTarget, hbad]
  · intro ops rate
    obtain ⟨s', hrun, _, h2, h3, _⟩ :=
      runOps_gain_inv rate ops gainParam.initSmoother rfl
        (dbToGain_pos 0) (dbToGain_pos 0) one_pos
    exact ⟨s', hrun, h2, h3⟩

/-- Witness for C9: set_target on a logarithmic smoother holding the
negative value -1 fails fast, while posting target 2 and advancing one
sample on the gain parameter's own smoother succeeds with positive
values. -/
theorem C9_log_requires_positive_witness :
    Smoother.setTarget
      { style := SmoothingStyle.logarithmic 50
        currentValue := (-1 : ℝ)
        targetValue := 1
        stepSize := 1
        remainingSteps := 0 } 44100 1 = Option.none ∧
    (∃ s', runOps 44100 gainParam.range gainParam.initSmoother
        [SmootherOp.setOp 2, SmootherOp.stepOp] = some s' ∧
      0 < s'.currentValue ∧ 0 < s'.targetValue) :=
  ⟨C9_log_requires_positive.1 _ 50 44100 1 rfl (Or.inl (by norm_num)),
    C9_log_requires_positive.2 [SmootherOp.setOp 2, SmootherOp.stepOp] 44100⟩

/-- C10: for each of the two parameters the default value lies within the
declared range, and every value stored to the parameter is clamped into the
range first: gain defaults to db_to_gain(0) = 1, inside
[db_to_gain(-30), db_to_gain(30)], and fuzz defaults to 0 inside of
[0, 1]. -/
theorem C10_defaults_and_clamping :
    gainParam.defaultValue = 1 ∧
    gainParam.range.minValue ≤ gainParam.defaultValue ∧
    gainParam.defaultValue ≤ gainParam.range.maxValue ∧
    fuzzParam.defaultValue = 0 ∧
    fuzzParam.range.minValue ≤ fuzzParam.defaultValue ∧
    fuzzParam.defaultValue ≤ fuzzParam.range.maxValue ∧
    (∀ v : ℝ, gainParam.range.minValue ≤ gainParam.store v ∧
      gainParam.store v ≤ gainParam.range.maxValue) ∧
    (∀ v : ℝ, fuzzParam.range.minValue ≤ fuzzParam.store v ∧
      fuzzParam.store v ≤ fuzzParam.range.maxValue) := by
  have hgm : gainParam.range.minValue ≤ gainParam.range.maxValue :=
    le_of_lt (dbToGain_lt_dbToGain (by norm_num : (-30 : ℝ) < 30))
  have hfm : fuzzParam.range.minValue ≤ fuzzParam.range.maxValue := by
    show (0 : ℝ) ≤ 1
    norm_num
  refine ⟨?_, ?_, ?_, rfl, le_refl 0, by show (0 : ℝ) ≤ 1; norm_num, ?_, ?_⟩
  · show dbToGain 0 = 1
    simp [dbToGain, Real.rpow_zero]
  · exact le_of_lt (dbToGain_lt_dbToGain (by norm_num : (-30 : ℝ) < 0))
  · exact le_of_lt (dbToGain_lt_dbToGain (by norm_num : (0 : ℝ) < 30))
  · exact fun v => FloatRange.clamp_mem gainParam.range hgm v
  · exact fun v => FloatRange.clamp_mem fuzzParam.range hfm v

theorem skewed_roundtrip (lo hi f n : ℝ) (hlohi : lo < hi) (hf : f ≠ 0)
    (hn : 0 ≤ n) :
    (FloatRange.skewed lo hi f).toNormalized
      ((FloatRange.skewed lo hi f).toReal n) = n := by
  simp only [FloatRange.toReal, FloatRange.toNormalized]
  have hne : hi - lo ≠ 0 := ne_of_gt (by linarith)
  have h1 : (lo + (hi - lo) * n ^ f⁻¹ - lo) / (hi - lo) = n ^ f⁻¹ := by
    field_simp
  rw [h1, ← Real.rpow_mul hn, inv_mul_cancel₀ hf, Real.rpow_one]

theorem skewed_toReal_mem (lo hi f n : ℝ) (hlohi : lo < hi) (hf : 0 < f)
    (h0 : 0 ≤ n) (h1 : n ≤ 1) :
    lo ≤ (FloatRange.skewed lo hi f).toReal n ∧
    (FloatRange.skewed lo hi f).toReal n ≤ hi := by
  have hu0 : 0 ≤ n ^ f⁻¹ := Real.rpow_nonneg h0 _
  have hu1 : n ^ f⁻¹ ≤ 1 := Real.rpow_le_one h0 h1 (by positivity)
  simp only [FloatRange.toReal]
  constructor <;> nlinarith

theorem skewed_toNormalized_mem (lo hi f v : ℝ) (hlohi : lo < hi)
    (hf : 0 < f) (hlo : lo ≤ v) (hhi : v ≤ hi) :
    0 ≤ (FloatRange.skewed lo hi f).toNormalized v ∧
    (FloatRange.skewed lo hi f).toNormalized v ≤ 1 := by
  have h0 : 0 ≤ (v - lo) / (hi - lo) := div_nonneg (by linarith) (by linarith)
  have h1 : (v - lo) / (hi - lo) ≤ 1 :=
    (div_le_one (by linarith)).mpr (by linarith)
  simp only [FloatRange.toNormalized]
  exact ⟨Real.rpow_nonneg h0 _, Real.rpow_le_one h0 h1 hf.le⟩

theorem gainSkewFactor_pos : 0 < gainSkewFactor (-30) 30 := by
  unfold gainSkewFactor
  have hmid : ((-30 : ℝ) + 30) / 2 = 0 := by norm_num
  rw [hmid]
  have h1 : dbToGain (-30) < dbToGain 0 :=
    dbToGain_lt_dbToGain (by norm_num)
  have h2 : dbToGain 0 < dbToGain 30 :=
    dbToGain_lt_dbToGain (by norm_num)
  have h3 : 0 < dbToGain (-30) := dbToGain_pos _
  have hratio_pos : 0 < (dbToGain 0 - dbToGain (-30)) /
      (dbToGain 30 - dbToGain (-30)) :=
    div_pos (by linarith) (by linarith)
  have hratio_lt1 : (dbToGain 0 - dbToGain (-30)) /
      (dbToGain 30 - dbToGain (-30)) < 1 :=
    (div_lt_one (by linarith)).mpr (by linarith)
  have hnum : Real.log 2⁻¹ < 0 := Real.log_neg (by norm_num) (by norm_num)
  have hden : Real.log ((dbToGain 0 - dbToGain (-30)) /
      (dbToGain 30 - dbToGain (-30))) < 0 :=
    Real.log_neg hratio_pos hratio_lt1
  exact div_pos_of_neg_of_neg hnum hden

/-- C7: for every normalized n in [0,1], both of the plugin's ranges — the
fuzz parameter's linear range [0,1] and the gain parameter's skewed range
from db_to_gain(-30) to db_to_gain(30) with factor gain_skew_factor(-30,30)
— satisfy the round-trip law to_normalized(to_real(n)) = n (exactly, in the
real-number model of the floating-point code), and both mappings are total
with outputs within bounds: to_real lands inside the range and
to_normalized maps range values into [0,1]. -/
theorem C7_range_roundtrip (n : ℝ) (h0 : 0 ≤ n) (h1 : n ≤ 1) :
    fuzzParam.range.toNormalized (fuzzParam.range.toReal n) = n ∧
    gainParam.range.toNormalized (gainParam.range.toReal n) = n ∧
    (fuzzParam.range.minValue ≤ fuzzParam.range.toReal n ∧
      fuzzParam.range.toReal n ≤ fuzzParam.range.maxValue) ∧
    (gainParam.range.minValue ≤ gainParam.range.toReal n ∧
      gainParam.range.toReal n ≤ gainParam.range.maxValue) ∧
    (∀ v : ℝ, fuzzParam.range.minValue ≤ v →
      v ≤ fuzzParam.range.maxValue →
      0 ≤ fuzzParam.range.toNormalized v ∧
        fuzzParam.range.toNormalized v ≤ 1) ∧
    (∀ v : ℝ, gainParam.range.minValue ≤ v →
      v ≤ gainParam.range.maxValue →
      0 ≤ gainParam.range.toNormalized v ∧
        gainParam.range.toNormalized v ≤ 1) := by
  have hlohi : dbToGain (-30) < dbToGain 30 :=
    dbToGain_lt_dbToGain (by norm_num)
  refine ⟨?_, ?_, ?_, ?_, ?_, ?_⟩
  · simp [fuzzParam, FloatRange.toReal, FloatRange.toNormalized]
  · exact skewed_roundtrip _ _ _ n hlohi (ne_of_gt gainSkewFactor_pos) h0
  · constructor
    · show (0 : ℝ) ≤ 0 + n * (1 - 0)
      nlinarith
    · show (0 : ℝ) + n * (1 - 0) ≤ 1
      nlinarith
  · exact skewed_toReal_mem _ _ _ n hlohi gainSkewFactor_pos h0 h1
  · intro v hlo hhi
    have hlo' : (0 : ℝ) ≤ v := hlo
    have hhi' : v ≤ 1 := hhi
    constructor
    · show (0 : ℝ) ≤ (v - 0) / (1 - 0)
      simpa using hlo'
    · show (v - 0) / (1 - 0) ≤ 1
      simpa using hhi'
  · exact fun v hlo hhi =>
      skewed_toNormalized_mem _ _ _ v hlohi gainSkewFactor_pos hlo hhi

/-- Witness for C7: the round-trip law holds at the concrete normalized
position one half for both the fuzz range and the gain range. -/
theorem C7_range_roundtrip_witness :
    ((0 : ℝ) ≤ 1 / 2 ∧ (1 / 2 : ℝ) ≤ 1) ∧
    fuzzParam.range.toNormalized (fuzzParam.range.toReal (1 / 2)) = 1 / 2 ∧
    gainParam.range.toNormalized (gainParam.range.toReal (1 / 2)) = 1 / 2 :=
  ⟨⟨by norm_num, by norm_num⟩,
    (C7_range_roundtrip (1 / 2) (by norm_num) (by norm_num)).1,
    (C7_range_roundtrip (1 / 2) (by norm_num) (by norm_num)).2.1⟩
